import Mathlib

/-!
# Verification of the Hivemind / GodView distributed perception core

This file gives a shallow embedding, in Lean 4, of the parts of the
Hivemind repository that the specification's testable properties talk
about, and proves (or refutes) those properties against the embedding.

The agent binary (`src/agent/src/main.rs`, `src/agent/src/carla_mode.rs`)
is embedded directly from its source.  The four core library modules that
`src/godview_core/src/lib.rs` declares (`godview_time`, `godview_space`,
`godview_trust`, `godview_tracking`) are not present under `src/` — only
their re-exports and call sites are — so the corresponding definitions
below are modelled from the specification text (§4.1–§4.4 of the spec);
each such definition carries a doc comment starting `Modelled from the
spec:` naming what is missing.

Real-valued (`f64`/`f32`) program arithmetic is embedded as exact
arithmetic: `ℝ` where trigonometry appears (the agent's coordinate
conversion) and `ℚ` elsewhere, so that the algebraic claims are settled
in exact arithmetic.
-/

open Matrix

namespace Hivemind

/-! ## Part 1 — the webcam agent (`src/agent/src/main.rs`)

`camera_to_global` (main.rs:278–304) and the per-face processing of the
webcam detection loop (main.rs:196–245) are pure arithmetic on `f64`/`f32`
values, embedded here over `ℝ`. -/

/-- `METERS_PER_DEGREE_LAT` (main.rs:49). -/
def METERS_PER_DEGREE_LAT : ℝ := 111320

/-- `FOCAL_LENGTH_CONST` (main.rs:45). -/
def FOCAL_LENGTH_CONST : ℝ := 500

/-- `REAL_FACE_WIDTH_M` (main.rs:46). -/
noncomputable def REAL_FACE_WIDTH_M : ℝ := 15 / 100

/-- `f32::to_radians` / `f64::to_radians`: degrees to radians. -/
noncomputable def toRadians (deg : ℝ) : ℝ := deg * Real.pi / 180

/-- `camera_to_global` (main.rs:278–304): transform camera-relative
coordinates `[x, y, z]` (meters) to global GPS `[lat, lon, alt]` given the
agent's GPS position and compass heading in degrees. -/
noncomputable def camera_to_global (camera_pos : Fin 3 → ℝ) (agent_gps : Fin 3 → ℝ)
    (heading : ℝ) : Fin 3 → ℝ :=
  let heading_rad := toRadians heading
  let cos_h := Real.cos heading_rad
  let sin_h := Real.sin heading_rad
  let x_world := camera_pos 0 * cos_h - camera_pos 2 * sin_h
  let z_world := camera_pos 0 * sin_h + camera_pos 2 * cos_h
  let meters_per_degree_lon := METERS_PER_DEGREE_LAT * Real.cos (toRadians (agent_gps 0))
  ![agent_gps 0 + z_world / METERS_PER_DEGREE_LAT,
    agent_gps 1 + x_world / meters_per_degree_lon,
    agent_gps 2 + camera_pos 1]

/-- `Entity` (re-exported by godview_core/src/lib.rs:19; fields as
constructed at main.rs:221–228 and carla_mode.rs:154–161).  The `Uuid` is
embedded as an opaque natural number. -/
structure Entity where
  id : ℕ
  position : Fin 3 → ℝ
  velocity : Fin 3 → ℝ
  entity_type : String
  timestamp : ℤ
  confidence : ℝ

/-- `GlobalHazardPacket` (main.rs:34–42). -/
structure GlobalHazardPacket where
  entity : Entity
  camera_pos : Fin 3 → ℝ
  agent_id : String

/-- The per-face body of the webcam detection loop (main.rs:196–245):
3D projection of a detected face rectangle, transform to global GPS,
`Entity` construction and `GlobalHazardPacket` assembly. -/
noncomputable def processFace (frame_width : ℝ) (face_rect_x face_rect_width : ℝ)
    (agent_lat agent_lon agent_alt agent_heading : ℝ)
    (new_id : ℕ) (timestamp : ℤ) (agent_id : String) : GlobalHazardPacket :=
  let center_x := frame_width / 2
  let face_x := face_rect_x + face_rect_width / 2
  let face_width_px := face_rect_width
  let z := FOCAL_LENGTH_CONST * REAL_FACE_WIDTH_M / face_width_px
  let x := (face_x - center_x) * z / FOCAL_LENGTH_CONST
  let y := (0 : ℝ)
  let camera_pos := ![x, y, z]
  let global_pos := camera_to_global camera_pos ![agent_lat, agent_lon, agent_alt] agent_heading
  let entity : Entity :=
    { id := new_id
      position := global_pos
      velocity := ![0, 0, 0]
      entity_type := "human_face"
      timestamp := timestamp
      confidence := 95 / 100 }
  { entity := entity, camera_pos := camera_pos, agent_id := agent_id }

/-- C9: with heading 0 the camera forward axis (z) maps to latitude/north,
the camera right axis (x) maps to longitude/east, and the camera y
component is added to altitude. -/
theorem camera_to_global_heading_zero (camera_pos agent_gps : Fin 3 → ℝ) :
    camera_to_global camera_pos agent_gps 0 =
      ![agent_gps 0 + camera_pos 2 / 111320,
        agent_gps 1 + camera_pos 0 / (111320 * Real.cos (agent_gps 0 * Real.pi / 180)),
        agent_gps 2 + camera_pos 1] := by
  unfold camera_to_global toRadians METERS_PER_DEGREE_LAT
  simp [Real.cos_zero, Real.sin_zero]

/-- C10: every `Entity` the webcam loop constructs and publishes carries
velocity exactly `[0, 0, 0]` and confidence exactly `0.95`, whatever the
detection was. -/
theorem webcam_entity_velocity_confidence (frame_width face_rect_x face_rect_width : ℝ)
    (agent_lat agent_lon agent_alt agent_heading : ℝ)
    (new_id : ℕ) (timestamp : ℤ) (agent_id : String) :
    (processFace frame_width face_rect_x face_rect_width agent_lat agent_lon agent_alt
        agent_heading new_id timestamp agent_id).entity.velocity = ![0, 0, 0] ∧
    (processFace frame_width face_rect_x face_rect_width agent_lat agent_lon agent_alt
        agent_heading new_id timestamp agent_id).entity.confidence = 95 / 100 := by
  constructor <;> rfl

/-! ## Part 2 — the trust layer (`godview_trust`)

`SignedPacket`, `SecurityContext` and `AuthError` are re-exported by
godview_core/src/lib.rs:20 but the `godview_trust` module itself is absent
from `src/`; the definitions below are modelled from spec §4.3 and §3
("SignedPacket").  Ed25519 is replaced by the perfect-cryptography
abstraction: a signature is the pair (signing public key, signed bytes),
and signature verification is equality of that pair with what the
declared key would have produced over the packet's canonical bytes. -/

/-- Byte strings. -/
abbrev Bytes := List ℕ

/-- Modelled from the spec: an Ed25519 key pair (§4.3); `pubk` is the
public verification key, `prvk` the signing key.  Keys are opaque
naturals. -/
structure KeyPair where
  pubk : ℕ
  prvk : ℕ
deriving DecidableEq

/-- Modelled from the spec: an Ed25519 signature under the
perfect-cryptography abstraction — it determines the signing key and the
exact bytes signed, and nothing else verifies. -/
structure Sig where
  signer : ℕ
  signedBytes : Bytes
deriving DecidableEq

/-- Modelled from the spec: capability descriptor (§4.3): scope string,
expiry, issuer public key, issuer signature over
(subject-pubkey ‖ scope ‖ expiry). -/
structure Capability where
  scope : String
  expiry : ℤ
  issuer : ℕ
  issuerSig : Sig
deriving DecidableEq

/-- Modelled from the spec: `be64(issued_at_ns)` — an injective byte
encoding of the issued-at timestamp. -/
def encTime (t : ℤ) : Bytes := [t.toNat, (-t).toNat]

/-- Modelled from the spec: the canonical bytes of a capability, as the
third component of the signed concatenation (zero-length if absent). -/
def capBytes : Option Capability → Bytes
  | none => []
  | some c => c.scope.toUTF8.toList.map (fun b => b.toNat) ++ encTime c.expiry ++ [c.issuer]

/-- `SignedPacket` (godview_core/src/lib.rs:20; constructed at
carla_mode.rs:184 and main.rs:245).  Modelled from the spec (§3):
payload bytes, signing public-key identifier, signature bytes, issued-at
timestamp, optional capability descriptor. -/
structure SignedPacket where
  payload : Bytes
  key_id : ℕ
  sig : Sig
  issued_at : ℤ
  capability : Option Capability
deriving DecidableEq

/-- Modelled from the spec: the concatenation that gets signed —
`canonical-bytes(payload) ‖ be64(issued_at_ns) ‖ capability_bytes`
(§4.3). -/
def signedConcat (payload : Bytes) (issued_at : ℤ) (cap : Option Capability) : Bytes :=
  payload ++ encTime issued_at ++ capBytes cap

/-- `SignedPacket::new` (called at carla_mode.rs:184, main.rs:245).
Modelled from the spec: `sign(payload, signing_key, capability?)` sets
`issued_at` to the current wall time, here passed explicitly (§4.3). -/
def SignedPacket.new (payload : Bytes) (k : KeyPair) (cap : Option Capability)
    (issued_at : ℤ) : SignedPacket :=
  { payload := payload
    key_id := k.pubk
    sig := { signer := k.pubk, signedBytes := signedConcat payload issued_at cap }
    issued_at := issued_at
    capability := cap }

/-- `AuthError` (godview_core/src/lib.rs:20).  Modelled from the spec:
error kinds of `verify` (§4.3). -/
inductive AuthError where
  | BadSignature
  | Stale
  | UnknownKey
  | CapabilityInvalid
  | CapabilityExpired
  | ScopeMissing
deriving DecidableEq

/-- `SecurityContext` (godview_core/src/lib.rs:20).  Modelled from the
spec: the accepting side's trusted key set, freshness window and
required-scopes set (§4.3, §6). -/
structure SecurityContext where
  trusted : List ℕ
  freshness_window : ℤ
  required_scopes : List String

/-- Modelled from the spec: capability validity — the capability verifies
under its issuer's key, the issuer is trusted, it is unexpired, and its
scope is among the accepting collaborator's required scopes (§4.3). -/
def capOk (ctx : SecurityContext) (subject : ℕ) (now : ℤ) (c : Capability) :
    Option AuthError :=
  if c.issuer ∉ ctx.trusted ∨
      c.issuerSig ≠ { signer := c.issuer,
                      signedBytes := subject :: capBytes (some c) } then
    some .CapabilityInvalid
  else if c.expiry < now then some .CapabilityExpired
  else if c.scope ∉ ctx.required_scopes then some .ScopeMissing
  else none

/-- Modelled from the spec: `verify(packet, trusted_key_set, now,
freshness_window)` (§4.3) — checks, in order, signature validity under a
trusted declared key, `|now − issued_at| ≤ freshness_window`, then the
capability checks when a capability is present. -/
def verify (ctx : SecurityContext) (p : SignedPacket) (now : ℤ) :
    Except AuthError Bytes :=
  if p.key_id ∉ ctx.trusted then .error .UnknownKey
  else if p.sig ≠ { signer := p.key_id,
                    signedBytes := signedConcat p.payload p.issued_at p.capability } then
    .error .BadSignature
  else if ¬ (|now - p.issued_at| ≤ ctx.freshness_window) then .error .Stale
  else
    match p.capability with
    | none => .ok p.payload
    | some c =>
      match capOk ctx p.key_id now c with
      | some e => .error e
      | none => .ok p.payload

/-- C4 counterexample: the round-trip invariant as stated — with no upper
bound relating `now − issued_at` to the window `w` — fails: with `w = 1`,
`issued_at = 0`, `now = 10` (so `w > 0` and `now ≥ issued_at`), `verify`
returns `Stale`, not `Ok`. -/
theorem verify_roundtrip_no_upper_bound_fails :
    (0 : ℤ) < 1 ∧ (0 : ℤ) ≤ 10 ∧
      verify { trusted := [5], freshness_window := 1, required_scopes := [] }
        (SignedPacket.new [1, 2, 3] { pubk := 5, prvk := 7 } none 0) 10 =
        .error .Stale := by
  refine ⟨by decide, by decide, ?_⟩
  rfl

/-- C4 (amended): signature round-trip — `verify(sign(p, k), {k.public},
now, w) = Ok(p)` whenever `w > 0`, `now ≥ issued_at` and additionally
`now − issued_at ≤ w`, the upper bound the freshness check imposes. -/
theorem verify_sign_roundtrip (payload : Bytes) (k : KeyPair) (issued_at now w : ℤ)
    (hw : 0 < w) (hlo : issued_at ≤ now) (hhi : now - issued_at ≤ w) :
    verify { trusted := [k.pubk], freshness_window := w, required_scopes := [] }
      (SignedPacket.new payload k none issued_at) now = .ok payload := by
  unfold verify SignedPacket.new
  simp only [List.mem_singleton]
  rw [if_neg (by simp), if_neg (by simp), if_neg]
  simp only [abs_sub_le_iff, not_not]
  exact ⟨hhi, by omega⟩

/-- C4 witness: the amended round-trip at a concrete input. -/
theorem verify_sign_roundtrip_witness :
    verify { trusted := [9], freshness_window := 5, required_scopes := [] }
      (SignedPacket.new [4, 4] { pubk := 9, prvk := 3 } none 100) 103 = .ok [4, 4] :=
  verify_sign_roundtrip [4, 4] { pubk := 9, prvk := 3 } 100 103 5 (by decide)
    (by decide) (by decide)

/-! ## Part 3 — Highlander identity reconciliation (`godview_tracking`)

`TrackManager` is re-exported by godview_core/src/lib.rs:21 but
`godview_tracking` is absent from `src/`; the merge rule below is
modelled from spec §4.4 ("Identity reconciliation (Highlander)"). -/

/-- Modelled from the spec: a track UUID.  A UUID's canonical textual
form has fixed width, so lexicographic comparison of two UUID strings
coincides with numeric comparison of the 128-bit values; we embed a UUID
as the natural number it denotes, ordered numerically. -/
abbrev UUID := ℕ

/-- Modelled from the spec: the Highlander pairwise merge — "the
surviving UUID is the lexicographically smaller of the two" (§4.4). -/
def highlander (a b : UUID) : UUID := min a b

/-- One fold step of reconciliation: merge the next duplicate track's
UUID into the survivor accumulated so far (none before the first). -/
def mergeStep (acc : Option UUID) (u : UUID) : Option UUID :=
  match acc with
  | none => some u
  | some v => some (highlander v u)

/-- Modelled from the spec: reconciliation of a group of duplicate tracks
that converged on the same physical entity — repeated pairwise Highlander
merges over the group; returns the surviving UUID (`none` for an empty
group) (§4.4). -/
def reconcile (group : List UUID) : Option UUID :=
  group.foldl mergeStep none

instance : RightCommutative mergeStep :=
  ⟨fun b a₁ a₂ => by
    cases b with
    | none => simp [mergeStep, highlander, min_comm]
    | some v => simp [mergeStep, highlander, min_assoc, min_comm, min_left_comm]⟩

/-- C3: the Highlander merge is deterministic and order-insensitive: a
pairwise merge survives the lexicographically smaller UUID, and
reconciling the same multiset of tracks in any permutation yields the
same surviving UUID. -/
theorem highlander_deterministic :
    (∀ a b : UUID, highlander a b = if a ≤ b then a else b) ∧
    (∀ g g' : List UUID, List.Perm g g' → reconcile g = reconcile g') := by
  constructor
  · intro a b
    simp [highlander, min_def]
  · intro g g' hperm
    exact hperm.foldl_eq none

/-- C3 witness: order-insensitivity and the pairwise rule at concrete
inputs. -/
theorem highlander_deterministic_witness :
    highlander 7 3 = 3 ∧ reconcile [2, 9, 4] = reconcile [9, 4, 2] :=
  ⟨(highlander_deterministic.1 7 3).trans (by decide),
   highlander_deterministic.2 [2, 9, 4] [9, 4, 2] (by decide)⟩

/-! ## Part 4 — the spatial index (`godview_space`)

`SpatialEngine` is re-exported by godview_core/src/lib.rs:19 and driven
through `update_entity` (carla_mode.rs:163–166, main.rs:230–231), but the
`godview_space` module is absent from `src/`; the index below is modelled
from spec §4.2.  The H3 hexagonal partition is an external library
(`h3o`), so it is modelled abstractly as a `CellScheme`: a cell
assignment with a k-ring enumeration satisfying the covering property
§4.2's `query_radius` relies on ("enumerate the center hex and its k-ring
such that k·avg_edge ≥ r").  Altitude voxel bucketing (fixed-height
layers) is modelled concretely by flooring `alt / voxel_height`. -/

/-- A 3D position: horizontal coordinates (meters in a fixed local frame)
and altitude. -/
structure P3 where
  px : ℚ
  py : ℚ
  alt : ℚ
deriving DecidableEq

/-- Squared horizontal distance. -/
def hdistSq (p q : ℚ × ℚ) : ℚ := (p.1 - q.1) ^ 2 + (p.2 - q.2) ^ 2

/-- Squared 3D distance. -/
def distSq (p q : P3) : ℚ :=
  (p.px - q.px) ^ 2 + (p.py - q.py) ^ 2 + (p.alt - q.alt) ^ 2

/-- Modelled from the spec: the hexagonal surface partition (H3, external
`h3o` crate) — a cell id per horizontal position, a k-ring enumeration
around a cell, an average edge length, and the covering guarantee that a
point within `k·edge` of a cell's generator lands in that cell's k-ring
(§4.2). -/
structure CellScheme where
  cellOf : ℚ × ℚ → ℕ
  kring : ℕ → ℕ → List ℕ
  edge : ℚ
  edge_pos : 0 < edge
  cover : ∀ (p q : ℚ × ℚ) (k : ℕ),
    hdistSq p q ≤ ((k : ℚ) * edge) ^ 2 → cellOf q ∈ kring k (cellOf p)

/-- A (hex, voxel) cell key. -/
abbrev CellKey := ℕ × ℤ

/-- Modelled from the spec: the altitude voxel bucket — altitude
discretized into fixed-height layers of height `h` (§4.2, default 2 m). -/
def vox (h : ℚ) (alt : ℚ) : ℤ := ⌊alt / h⌋

/-- The (hex, voxel) cell of a position. -/
def keyOf (sch : CellScheme) (h : ℚ) (p : P3) : CellKey :=
  (sch.cellOf (p.px, p.py), vox h p.alt)

/-- First-match lookup in an association list. -/
def lookupA {κ ν : Type} [DecidableEq κ] : List (κ × ν) → κ → Option ν
  | [], _ => none
  | kv :: l, k => if kv.1 = k then some kv.2 else lookupA l k

/-- Remove every binding of a key. -/
def eraseKey {κ ν : Type} [DecidableEq κ] (k : κ) (l : List (κ × ν)) : List (κ × ν) :=
  l.filter (fun kv => decide (kv.1 ≠ k))

/-- Bind a key, replacing any previous binding. -/
def setKey {κ ν : Type} [DecidableEq κ] (k : κ) (v : ν) (l : List (κ × ν)) : List (κ × ν) :=
  (k, v) :: eraseKey k l

/-- Modelled from the spec: the spatial index state — a mapping from
(hex, voxel) cell to the set of track UUIDs there, plus the per-UUID
"last known position" side map making upsert/removal O(1) (§4.2, §9). -/
structure SpatialEngine where
  cells : List (CellKey × List UUID)
  last : List (UUID × P3)
deriving DecidableEq

/-- The empty index. -/
def emptyEngine : SpatialEngine := { cells := [], last := [] }

/-- Set insertion into a cell's UUID set. -/
def insertU (u : UUID) (s : List UUID) : List UUID := if u ∈ s then s else u :: s

/-- Insert a UUID into a cell, creating the cell lazily on first
occupancy (§3 lifecycles). -/
def addToCell (cells : List (CellKey × List UUID)) (c : CellKey) (u : UUID) :
    List (CellKey × List UUID) :=
  match lookupA cells c with
  | none => (c, [u]) :: cells
  | some s => setKey c (insertU u s) cells

/-- Remove a UUID from a cell, dropping the cell entry when its last
track leaves (§3 lifecycles). -/
def removeFromCell (cells : List (CellKey × List UUID)) (c : CellKey) (u : UUID) :
    List (CellKey × List UUID) :=
  match lookupA cells c with
  | none => cells
  | some s =>
    let s' := s.filter (fun v => decide (v ≠ u))
    if s' = [] then eraseKey c cells else setKey c s' cells

/-- `update_entity` (called at carla_mode.rs:164, main.rs:231).  Modelled
from the spec: `upsert(track_id, position)` — compute the new (hex,
voxel); if the track was previously at a different cell, remove it from
the old cell; insert at the new one; record the last known position
(§4.2). -/
def update_entity (sch : CellScheme) (h : ℚ) (e : SpatialEngine) (u : UUID) (p : P3) :
    SpatialEngine :=
  let c := keyOf sch h p
  let e1 :=
    match lookupA e.last u with
    | none => e
    | some pOld =>
      if keyOf sch h pOld = c then e
      else { e with cells := removeFromCell e.cells (keyOf sch h pOld) u }
  { cells := addToCell e1.cells c u, last := setKey u p e1.last }

/-- Modelled from the spec: `remove(track_id)` — the last known cell is
tracked per UUID so removal is O(1) (§4.2). -/
def removeTrack (sch : CellScheme) (h : ℚ) (e : SpatialEngine) (u : UUID) : SpatialEngine :=
  match lookupA e.last u with
  | none => e
  | some p =>
    { cells := removeFromCell e.cells (keyOf sch h p) u, last := eraseKey u e.last }

/-- An index operation: upsert or remove. -/
inductive SOp where
  | up (u : UUID) (p : P3)
  | rm (u : UUID)

/-- Apply one index operation. -/
def applySOp (sch : CellScheme) (h : ℚ) (e : SpatialEngine) : SOp → SpatialEngine
  | .up u p => update_entity sch h e u p
  | .rm u => removeTrack sch h e u

/-- Apply a sequence of index operations. -/
def applySOps (sch : CellScheme) (h : ℚ) (ops : List SOp) (e : SpatialEngine) :
    SpatialEngine :=
  ops.foldl (applySOp sch h) e

lemma lookupA_setKey_self {κ ν : Type} [DecidableEq κ] (k : κ) (v : ν) (l : List (κ × ν)) :
    lookupA (setKey k v l) k = some v := by
  simp [setKey, lookupA]

lemma eraseKey_cons {κ ν : Type} [DecidableEq κ] (k : κ) (kv : κ × ν) (l : List (κ × ν)) :
    eraseKey k (kv :: l) = if kv.1 = k then eraseKey k l else kv :: eraseKey k l := by
  by_cases hk : kv.1 = k
  · simp [eraseKey, List.filter_cons, hk]
  · simp [eraseKey, List.filter_cons, hk]

lemma eraseKey_cons_self {κ ν : Type} [DecidableEq κ] (k : κ) (v : ν) (l : List (κ × ν)) :
    eraseKey k ((k, v) :: l) = eraseKey k l := by
  rw [eraseKey_cons]
  exact if_pos rfl

lemma eraseKey_of_lookupA_none {κ ν : Type} [DecidableEq κ] (k : κ) (l : List (κ × ν))
    (hl : lookupA l k = none) : eraseKey k l = l := by
  induction l with
  | nil => rfl
  | cons kv t ih =>
    simp only [lookupA] at hl
    by_cases hk : kv.1 = k
    · simp [hk] at hl
    · simp only [if_neg hk] at hl
      rw [eraseKey_cons, if_neg hk, ih hl]

lemma setKey_setKey {κ ν : Type} [DecidableEq κ] (k : κ) (v : ν) (l : List (κ × ν)) :
    setKey k v (setKey k v l) = setKey k v l := by
  simp only [setKey, eraseKey_cons_self]
  rw [show eraseKey k (eraseKey k l) = eraseKey k l from ?_]
  simp only [eraseKey, List.filter_filter]
  exact List.filter_congr (fun kv _ => by simp)

lemma mem_insertU_self (u : UUID) (s : List UUID) : u ∈ insertU u s := by
  unfold insertU
  by_cases hu : u ∈ s
  · simp [hu]
  · simp [hu]

lemma insertU_of_mem (u : UUID) (s : List UUID) (hu : u ∈ s) : insertU u s = s := by
  simp [insertU, hu]

lemma addToCell_idem (cells : List (CellKey × List UUID)) (c : CellKey) (u : UUID) :
    addToCell (addToCell cells c u) c u = addToCell cells c u := by
  unfold addToCell
  cases hl : lookupA cells c with
  | none =>
    have h1 : lookupA ((c, [u]) :: cells) c = some [u] := by simp [lookupA]
    simp only [hl, h1]
    rw [insertU_of_mem u [u] (by simp)]
    simp only [setKey, eraseKey_cons_self, eraseKey_of_lookupA_none c cells hl]
  | some s =>
    have h1 : lookupA (setKey c (insertU u s) cells) c = some (insertU u s) :=
      lookupA_setKey_self c _ cells
    simp only [hl, h1]
    rw [insertU_of_mem u _ (mem_insertU_self u s), setKey_setKey]

/-- C8: spatial upsert idempotence — `update_entity` applied twice in a
row with an identical position leaves the index in exactly the state a
single application produces, for every scheme, voxel height, starting
state, track id and position. -/
theorem update_entity_idempotent (sch : CellScheme) (h : ℚ) (e : SpatialEngine)
    (u : UUID) (p : P3) :
    update_entity sch h (update_entity sch h e u p) u p = update_entity sch h e u p := by
  unfold update_entity
  simp only [lookupA_setKey_self, if_pos rfl]
  exact congrArg₂ _ (addToCell_idem _ _ _) (setKey_setKey _ _ _)


lemma lookupA_cons_ne {κ ν : Type} [DecidableEq κ] {k : κ} {kv : κ × ν} (l : List (κ × ν))
    (hk : kv.1 ≠ k) : lookupA (kv :: l) k = lookupA l k := by
  simp only [lookupA, if_neg hk]

lemma lookupA_eraseKey_self {κ ν : Type} [DecidableEq κ] (k : κ) (l : List (κ × ν)) :
    lookupA (eraseKey k l) k = none := by
  induction l with
  | nil => rfl
  | cons kv t ih =>
    rw [eraseKey_cons]
    by_cases hkv : kv.1 = k
    · rw [if_pos hkv]; exact ih
    · rw [if_neg hkv, lookupA_cons_ne _ hkv]
      exact ih

lemma lookupA_eraseKey_ne {κ ν : Type} [DecidableEq κ] {k k' : κ} (hk : k' ≠ k)
    (l : List (κ × ν)) : lookupA (eraseKey k l) k' = lookupA l k' := by
  induction l with
  | nil => rfl
  | cons kv t ih =>
    rw [eraseKey_cons]
    by_cases hkv : kv.1 = k
    · rw [if_pos hkv, lookupA_cons_ne t (hkv ▸ (Ne.symm hk) : kv.1 ≠ k'), ih]
    · rw [if_neg hkv]
      by_cases hkv' : kv.1 = k'
      · simp only [lookupA, if_pos hkv']
      · rw [lookupA_cons_ne _ hkv', lookupA_cons_ne _ hkv', ih]

lemma lookupA_setKey_ne {κ ν : Type} [DecidableEq κ] {k k' : κ} (v : ν) (l : List (κ × ν))
    (hk : k' ≠ k) : lookupA (setKey k v l) k' = lookupA l k' := by
  rw [setKey, lookupA_cons_ne _ (Ne.symm hk)]
  exact lookupA_eraseKey_ne hk l

lemma lookupA_mem {κ ν : Type} [DecidableEq κ] {k : κ} {v : ν} {l : List (κ × ν)}
    (hl : lookupA l k = some v) : (k, v) ∈ l := by
  induction l with
  | nil => exact Option.noConfusion hl
  | cons kv t ih =>
    obtain ⟨k1, v1⟩ := kv
    by_cases hkv : k1 = k
    · subst hkv
      simp only [lookupA, eq_self_iff_true, if_true, Option.some.injEq] at hl
      subst hl
      exact List.mem_cons_self _ _
    · rw [lookupA_cons_ne t hkv] at hl
      exact List.mem_cons_of_mem _ (ih hl)

lemma addToCell_none {cells : List (CellKey × List UUID)} {c : CellKey} (u : UUID)
    (hl : lookupA cells c = none) : addToCell cells c u = (c, [u]) :: cells := by
  unfold addToCell
  rw [hl]

lemma addToCell_some {cells : List (CellKey × List UUID)} {c : CellKey} {s : List UUID}
    (u : UUID) (hl : lookupA cells c = some s) :
    addToCell cells c u = setKey c (insertU u s) cells := by
  unfold addToCell
  rw [hl]

lemma removeFromCell_none {cells : List (CellKey × List UUID)} {c : CellKey} (u : UUID)
    (hl : lookupA cells c = none) : removeFromCell cells c u = cells := by
  unfold removeFromCell
  rw [hl]

lemma removeFromCell_some {cells : List (CellKey × List UUID)} {c : CellKey} {s : List UUID}
    (u : UUID) (hl : lookupA cells c = some s) :
    removeFromCell cells c u =
      if s.filter (fun v => decide (v ≠ u)) = [] then eraseKey c cells
      else setKey c (s.filter (fun v => decide (v ≠ u))) cells := by
  unfold removeFromCell
  rw [hl]

/-- A cell of the index contains a UUID. -/
def cellHas (cells : List (CellKey × List UUID)) (c : CellKey) (u : UUID) : Prop :=
  ∃ s, lookupA cells c = some s ∧ u ∈ s

lemma cellHas_addToCell_self (cells : List (CellKey × List UUID)) (c : CellKey) (u : UUID) :
    cellHas (addToCell cells c u) c u := by
  cases hl : lookupA cells c with
  | none =>
    rw [addToCell_none u hl]
    exact ⟨[u], by simp [lookupA], by simp⟩
  | some s =>
    rw [addToCell_some u hl]
    exact ⟨insertU u s, lookupA_setKey_self c _ cells, mem_insertU_self u s⟩

lemma cellHas_addToCell_mono {cells : List (CellKey × List UUID)} {c' : CellKey} {u' : UUID}
    (c : CellKey) (u : UUID) (hc : cellHas cells c' u') : cellHas (addToCell cells c u) c' u' := by
  obtain ⟨s', hs', hu'⟩ := hc
  by_cases hcc : c' = c
  · subst hcc
    rw [addToCell_some u hs']
    refine ⟨insertU u s', lookupA_setKey_self _ _ _, ?_⟩
    unfold insertU
    by_cases hm : u ∈ s' <;> simp [hm, hu']
  · cases hl : lookupA cells c with
    | none =>
      rw [addToCell_none u hl]
      exact ⟨s', by rw [lookupA_cons_ne _ (fun hc => hcc hc.symm : (c, [u]).1 ≠ c'), hs'], hu'⟩
    | some s =>
      rw [addToCell_some u hl]
      exact ⟨s', (lookupA_setKey_ne _ cells hcc).trans hs', hu'⟩

lemma cellHas_addToCell_elim {cells : List (CellKey × List UUID)} {c c' : CellKey}
    {u u' : UUID} (hc : cellHas (addToCell cells c u) c' u') :
    (c' = c ∧ u' = u) ∨ cellHas cells c' u' := by
  obtain ⟨s', hs', hu'⟩ := hc
  by_cases hcc : c' = c
  · subst hcc
    cases hl : lookupA cells c' with
    | none =>
      rw [addToCell_none u hl] at hs'
      simp only [lookupA, eq_self_iff_true, if_true, Option.some.injEq] at hs'
      subst hs'
      simp only [List.mem_singleton] at hu'
      exact Or.inl ⟨rfl, hu'⟩
    | some s =>
      rw [addToCell_some u hl, lookupA_setKey_self] at hs'
      obtain rfl : insertU u s = s' := by injection hs'
      unfold insertU at hu'
      by_cases hm : u ∈ s
      · rw [if_pos hm] at hu'
        exact Or.inr ⟨s, hl, hu'⟩
      · rw [if_neg hm] at hu'
        rcases List.mem_cons.mp hu' with h | h
        · exact Or.inl ⟨rfl, h⟩
        · exact Or.inr ⟨s, hl, h⟩
  · right
    cases hl : lookupA cells c with
    | none =>
      rw [addToCell_none u hl, lookupA_cons_ne _ (fun h => hcc h.symm : (c, [u]).1 ≠ c')] at hs'
      exact ⟨s', hs', hu'⟩
    | some s =>
      rw [addToCell_some u hl, lookupA_setKey_ne _ cells hcc] at hs'
      exact ⟨s', hs', hu'⟩

lemma cellHas_removeFromCell_elim {cells : List (CellKey × List UUID)} {c0 c' : CellKey}
    {u0 u' : UUID} (hc : cellHas (removeFromCell cells c0 u0) c' u') :
    cellHas cells c' u' ∧ ¬(c' = c0 ∧ u' = u0) := by
  obtain ⟨s', hs', hu'⟩ := hc
  cases hl : lookupA cells c0 with
  | none =>
    rw [removeFromCell_none u0 hl] at hs'
    refine ⟨⟨s', hs', hu'⟩, fun hcon => ?_⟩
    rw [hcon.1] at hs'
    rw [hs'] at hl
    exact Option.noConfusion hl
  | some s =>
    rw [removeFromCell_some u0 hl] at hs'
    by_cases hcc : c' = c0
    · subst hcc
      by_cases hnil : s.filter (fun v => decide (v ≠ u0)) = []
      · rw [if_pos hnil, lookupA_eraseKey_self] at hs'
        exact Option.noConfusion hs'
      · rw [if_neg hnil, lookupA_setKey_self] at hs'
        obtain rfl : s.filter (fun v => decide (v ≠ u0)) = s' := by injection hs'
        have hmem := List.mem_filter.mp hu'
        refine ⟨⟨s, hl, hmem.1⟩, fun hcon => ?_⟩
        have hne := hmem.2
        simp only [decide_eq_true_eq] at hne
        exact hne hcon.2
    · by_cases hnil : s.filter (fun v => decide (v ≠ u0)) = []
      · rw [if_pos hnil, lookupA_eraseKey_ne hcc cells] at hs'
        exact ⟨⟨s', hs', hu'⟩, fun hcon => hcc hcon.1⟩
      · rw [if_neg hnil, lookupA_setKey_ne _ cells hcc] at hs'
        exact ⟨⟨s', hs', hu'⟩, fun hcon => hcc hcon.1⟩

lemma cellHas_removeFromCell_keep {cells : List (CellKey × List UUID)} {c' : CellKey}
    {u' : UUID} (c0 : CellKey) (u0 : UUID) (hc : cellHas cells c' u')
    (hne : ¬(c' = c0 ∧ u' = u0)) : cellHas (removeFromCell cells c0 u0) c' u' := by
  obtain ⟨s', hs', hu'⟩ := hc
  cases hl : lookupA cells c0 with
  | none =>
    rw [removeFromCell_none u0 hl]
    exact ⟨s', hs', hu'⟩
  | some s =>
    rw [removeFromCell_some u0 hl]
    by_cases hcc : c' = c0
    · subst hcc
      have hss : s = s' := by rw [hl] at hs'; injection hs'
      subst hss
      have hu0 : u' ≠ u0 := fun hcon => hne ⟨rfl, hcon⟩
      have hmem : u' ∈ s.filter (fun v => decide (v ≠ u0)) :=
        List.mem_filter.mpr ⟨hu', by simpa using hu0⟩
      have hnil : s.filter (fun v => decide (v ≠ u0)) ≠ [] := by
        intro hcon
        rw [hcon] at hmem
        exact List.not_mem_nil _ hmem
      rw [if_neg hnil]
      exact ⟨_, lookupA_setKey_self _ _ _, hmem⟩
    · by_cases hnil : s.filter (fun v => decide (v ≠ u0)) = []
      · rw [if_pos hnil]
        exact ⟨s', (lookupA_eraseKey_ne hcc cells).trans hs', hu'⟩
      · rw [if_neg hnil]
        exact ⟨s', (lookupA_setKey_ne _ cells hcc).trans hs', hu'⟩

lemma update_entity_none {sch : CellScheme} {h : ℚ} {e : SpatialEngine} {u : UUID} (p : P3)
    (hl : lookupA e.last u = none) :
    update_entity sch h e u p =
      { cells := addToCell e.cells (keyOf sch h p) u, last := setKey u p e.last } := by
  unfold update_entity
  rw [hl]

lemma update_entity_same {sch : CellScheme} {h : ℚ} {e : SpatialEngine} {u : UUID}
    {pOld : P3} (p : P3) (hl : lookupA e.last u = some pOld)
    (hk : keyOf sch h pOld = keyOf sch h p) :
    update_entity sch h e u p =
      { cells := addToCell e.cells (keyOf sch h p) u, last := setKey u p e.last } := by
  unfold update_entity
  rw [hl]
  simp only [if_pos hk]

lemma update_entity_moved {sch : CellScheme} {h : ℚ} {e : SpatialEngine} {u : UUID}
    {pOld : P3} (p : P3) (hl : lookupA e.last u = some pOld)
    (hk : ¬ keyOf sch h pOld = keyOf sch h p) :
    update_entity sch h e u p =
      { cells := addToCell (removeFromCell e.cells (keyOf sch h pOld) u) (keyOf sch h p) u,
        last := setKey u p e.last } := by
  unfold update_entity
  rw [hl]
  simp only [if_neg hk]

lemma removeTrack_none {sch : CellScheme} {h : ℚ} {e : SpatialEngine} {u : UUID}
    (hl : lookupA e.last u = none) : removeTrack sch h e u = e := by
  unfold removeTrack
  rw [hl]

lemma removeTrack_some {sch : CellScheme} {h : ℚ} {e : SpatialEngine} {u : UUID} {p : P3}
    (hl : lookupA e.last u = some p) :
    removeTrack sch h e u =
      { cells := removeFromCell e.cells (keyOf sch h p) u, last := eraseKey u e.last } := by
  unfold removeTrack
  rw [hl]

/-- The spatial-index consistency invariant (§4.2): every live track (one
with a recorded last position) is in the cell of that position, and every
UUID found in some cell is live and that cell is the cell of its recorded
position. -/
def EngineInv (sch : CellScheme) (h : ℚ) (e : SpatialEngine) : Prop :=
  (∀ u p, lookupA e.last u = some p → cellHas e.cells (keyOf sch h p) u) ∧
  (∀ u c s, lookupA e.cells c = some s → u ∈ s →
    ∃ p, lookupA e.last u = some p ∧ c = keyOf sch h p)

lemma engineInv_empty (sch : CellScheme) (h : ℚ) : EngineInv sch h emptyEngine := by
  constructor
  · intro u p hl
    exact Option.noConfusion hl
  · intro u c s hl
    exact Option.noConfusion hl

lemma engineInv_update_entity {sch : CellScheme} {h : ℚ} {e : SpatialEngine}
    (hinv : EngineInv sch h e) (u : UUID) (p : P3) :
    EngineInv sch h (update_entity sch h e u p) := by
  obtain ⟨hA, hB⟩ := hinv
  cases hl : lookupA e.last u with
  | none =>
    rw [update_entity_none p hl]
    constructor
    · intro u' p' hl'
      by_cases hu : u' = u
      · subst hu
        rw [lookupA_setKey_self] at hl'
        obtain rfl : p = p' := by injection hl'
        exact cellHas_addToCell_self _ _ _
      · rw [lookupA_setKey_ne _ _ hu] at hl'
        exact cellHas_addToCell_mono _ _ (hA u' p' hl')
    · intro u' c' s' hl' hu'
      rcases cellHas_addToCell_elim ⟨s', hl', hu'⟩ with ⟨hc, hu⟩ | hold
      · subst hc; subst hu
        exact ⟨p, lookupA_setKey_self _ _ _, rfl⟩
      · obtain ⟨s0, hs0, hu0⟩ := hold
        obtain ⟨p', hp', hc'⟩ := hB u' c' s0 hs0 hu0
        have hu : u' ≠ u := by
          intro hcon
          subst hcon
          rw [hl] at hp'
          exact Option.noConfusion hp'
        rw [← lookupA_setKey_ne p e.last hu] at hp'
        exact ⟨p', hp', hc'⟩
  | some pOld =>
    by_cases hk : keyOf sch h pOld = keyOf sch h p
    · rw [update_entity_same p hl hk]
      constructor
      · intro u' p' hl'
        by_cases hu : u' = u
        · subst hu
          rw [lookupA_setKey_self] at hl'
          obtain rfl : p = p' := by injection hl'
          exact cellHas_addToCell_self _ _ _
        · rw [lookupA_setKey_ne _ _ hu] at hl'
          exact cellHas_addToCell_mono _ _ (hA u' p' hl')
      · intro u' c' s' hl' hu'
        rcases cellHas_addToCell_elim ⟨s', hl', hu'⟩ with ⟨hc, hu⟩ | hold
        · subst hc; subst hu
          exact ⟨p, lookupA_setKey_self _ _ _, rfl⟩
        · obtain ⟨s0, hs0, hu0⟩ := hold
          obtain ⟨p', hp', hc'⟩ := hB u' c' s0 hs0 hu0
          by_cases hu : u' = u
          · subst hu
            rw [hl] at hp'
            obtain rfl : pOld = p' := by injection hp'
            exact ⟨p, lookupA_setKey_self _ _ _, hc'.trans hk⟩
          · rw [← lookupA_setKey_ne p e.last hu] at hp'
            exact ⟨p', hp', hc'⟩
    · rw [update_entity_moved p hl hk]
      constructor
      · intro u' p' hl'
        by_cases hu : u' = u
        · subst hu
          rw [lookupA_setKey_self] at hl'
          obtain rfl : p = p' := by injection hl'
          exact cellHas_addToCell_self _ _ _
        · rw [lookupA_setKey_ne _ _ hu] at hl'
          refine cellHas_addToCell_mono _ _ ?_
          refine cellHas_removeFromCell_keep _ _ (hA u' p' hl') ?_
          intro hcon
          exact hu hcon.2
      · intro u' c' s' hl' hu'
        rcases cellHas_addToCell_elim ⟨s', hl', hu'⟩ with ⟨hc, hu⟩ | hold
        · subst hc; subst hu
          exact ⟨p, lookupA_setKey_self _ _ _, rfl⟩
        · obtain ⟨hold', hne⟩ := cellHas_removeFromCell_elim hold
          obtain ⟨s0, hs0, hu0⟩ := hold'
          obtain ⟨p', hp', hc'⟩ := hB u' c' s0 hs0 hu0
          by_cases hu : u' = u
          · subst hu
            rw [hl] at hp'
            obtain rfl : pOld = p' := by injection hp'
            exact absurd ⟨hc', rfl⟩ hne
          · rw [← lookupA_setKey_ne p e.last hu] at hp'
            exact ⟨p', hp', hc'⟩

lemma engineInv_removeTrack {sch : CellScheme} {h : ℚ} {e : SpatialEngine}
    (hinv : EngineInv sch h e) (u : UUID) :
    EngineInv sch h (removeTrack sch h e u) := by
  obtain ⟨hA, hB⟩ := hinv
  cases hl : lookupA e.last u with
  | none =>
    rw [removeTrack_none hl]
    exact ⟨hA, hB⟩
  | some p =>
    rw [removeTrack_some hl]
    constructor
    · intro u' p' hl'
      have hu : u' ≠ u := by
        intro hcon
        subst hcon
        rw [lookupA_eraseKey_self] at hl'
        exact Option.noConfusion hl'
      rw [lookupA_eraseKey_ne hu] at hl'
      refine cellHas_removeFromCell_keep _ _ (hA u' p' hl') ?_
      intro hcon
      exact hu hcon.2
    · intro u' c' s' hl' hu'
      obtain ⟨hold, hne⟩ := cellHas_removeFromCell_elim ⟨s', hl', hu'⟩
      obtain ⟨s0, hs0, hu0⟩ := hold
      obtain ⟨p', hp', hc'⟩ := hB u' c' s0 hs0 hu0
      by_cases hu : u' = u
      · subst hu
        rw [hl] at hp'
        obtain rfl : p = p' := by injection hp'
        exact absurd ⟨hc', rfl⟩ hne
      · rw [← lookupA_eraseKey_ne hu e.last] at hp'
        exact ⟨p', hp', hc'⟩

lemma engineInv_applySOp {sch : CellScheme} {h : ℚ} {e : SpatialEngine}
    (hinv : EngineInv sch h e) (op : SOp) : EngineInv sch h (applySOp sch h e op) := by
  cases op with
  | up u p => exact engineInv_update_entity hinv u p
  | rm u => exact engineInv_removeTrack hinv u

lemma engineInv_applySOps (sch : CellScheme) (h : ℚ) (ops : List SOp) :
    EngineInv sch h (applySOps sch h ops emptyEngine) := by
  suffices hgen : ∀ (e : SpatialEngine), EngineInv sch h e →
      EngineInv sch h (applySOps sch h ops e) from
    hgen emptyEngine (engineInv_empty sch h)
  induction ops with
  | nil => exact fun e he => he
  | cons op rest ih =>
    intro e he
    exact ih _ (engineInv_applySOp he op)

/-- C5: spatial-index uniqueness — after any sequence of
`update_entity`/`remove` operations from the empty index, every live
track (one with a recorded last position) is contained in exactly one
(hex, voxel) cell. -/
theorem spatial_index_uniqueness (sch : CellScheme) (h : ℚ) (ops : List SOp)
    (u : UUID) (p : P3)
    (hlive : lookupA (applySOps sch h ops emptyEngine).last u = some p) :
    ∃! c : CellKey, cellHas (applySOps sch h ops emptyEngine).cells c u := by
  obtain ⟨hA, hB⟩ := engineInv_applySOps sch h ops
  refine ⟨keyOf sch h p, hA u p hlive, ?_⟩
  intro c' hc'
  obtain ⟨s', hs', hu'⟩ := hc'
  obtain ⟨p', hp', hcp⟩ := hB u c' s' hs' hu'
  rw [hlive] at hp'
  obtain rfl : p = p' := by injection hp'
  exact hcp

/-- Modelled from the spec: `query_radius(center, r)` (§4.2) — enumerate
the center hex's k-ring with `k·avg_edge ≥ r`, keep voxel buckets within
`⌈r / voxel_height⌉` of the center's bucket, and return the union of the
qualifying cells' track sets. -/
def query_radius (sch : CellScheme) (h : ℚ) (e : SpatialEngine) (center : P3) (r : ℚ) :
    List UUID :=
  let k := (⌈r / sch.edge⌉).toNat
  let hexes := sch.kring k (sch.cellOf (center.px, center.py))
  let b0 := vox h center.alt
  let bd := ⌈r / h⌉
  (e.cells.filter (fun kv => decide (kv.1.1 ∈ hexes ∧ |kv.1.2 - b0| ≤ bd))).flatMap
    (fun kv => kv.2)

lemma floor_sub_floor_le_ceil (x y : ℚ) : ⌊x⌋ - ⌊y⌋ ≤ ⌈x - y⌉ := by
  have h1 : (⌊x⌋ : ℚ) ≤ x := Int.floor_le x
  have h2 : y - 1 < ⌊y⌋ := by linarith [Int.lt_floor_add_one y]
  have h3 : (x - y : ℚ) ≤ ⌈x - y⌉ := Int.le_ceil _
  have h5 : (⌊x⌋ - ⌊y⌋ : ℚ) < (⌈x - y⌉ : ℚ) + 1 := by linarith
  exact_mod_cast Int.lt_add_one_iff.mp (by exact_mod_cast h5)

lemma vox_bound {h r a b : ℚ} (hh : 0 < h) (hab : |a - b| ≤ r) :
    |vox h a - vox h b| ≤ ⌈r / h⌉ := by
  have hab1 : a - b ≤ r := le_trans (le_abs_self _) hab
  have hab2 : b - a ≤ r := by
    rw [abs_sub_comm] at hab
    exact le_trans (le_abs_self _) hab
  have hd1 : (a - b) / h ≤ r / h := (div_le_div_iff_of_pos_right hh).mpr hab1
  have hd2 : (b - a) / h ≤ r / h := (div_le_div_iff_of_pos_right hh).mpr hab2
  have hc1 : ⌊a / h⌋ - ⌊b / h⌋ ≤ ⌈r / h⌉ := by
    refine le_trans (floor_sub_floor_le_ceil (a / h) (b / h)) (Int.ceil_le_ceil ?_)
    rw [div_sub_div_same]
    exact hd1
  have hc2 : ⌊b / h⌋ - ⌊a / h⌋ ≤ ⌈r / h⌉ := by
    refine le_trans (floor_sub_floor_le_ceil (b / h) (a / h)) (Int.ceil_le_ceil ?_)
    rw [div_sub_div_same]
    exact hd2
  unfold vox
  rw [abs_le]
  omega

/-- C7: `query_radius` completeness — the index may return false
positives but never omits a live track whose indexed position lies within
distance `r` of the query center. -/
theorem query_radius_complete (sch : CellScheme) (h : ℚ) (ops : List SOp) (center : P3)
    (r : ℚ) (u : UUID) (p : P3) (hh : 0 < h) (hr : 0 ≤ r)
    (hlive : lookupA (applySOps sch h ops emptyEngine).last u = some p)
    (hd : distSq p center ≤ r ^ 2) :
    u ∈ query_radius sch h (applySOps sch h ops emptyEngine) center r := by
  obtain ⟨hA, hB⟩ := engineInv_applySOps sch h ops
  obtain ⟨s, hs, hu⟩ := hA u p hlive
  have hmem : (keyOf sch h p, s) ∈ (applySOps sch h ops emptyEngine).cells := lookupA_mem hs
  have hedge := sch.edge_pos
  have hq : 0 ≤ r / sch.edge := div_nonneg hr (le_of_lt hedge)
  have hcl : (0 : ℤ) ≤ ⌈r / sch.edge⌉ := Int.ceil_nonneg hq
  have hKr : r ≤ (((⌈r / sch.edge⌉).toNat : ℕ) : ℚ) * sch.edge := by
    have h1 : r / sch.edge ≤ (((⌈r / sch.edge⌉).toNat : ℕ) : ℚ) := by
      rw [show ((((⌈r / sch.edge⌉).toNat : ℕ)) : ℚ) = ((⌈r / sch.edge⌉ : ℤ) : ℚ) from by
        exact_mod_cast congrArg (fun z : ℤ => (z : ℚ)) (Int.toNat_of_nonneg hcl)]
      exact Int.le_ceil _
    calc r = r / sch.edge * sch.edge := by field_simp
    _ ≤ (((⌈r / sch.edge⌉).toNat : ℕ) : ℚ) * sch.edge :=
      mul_le_mul_of_nonneg_right h1 (le_of_lt hedge)
  have hhd : hdistSq (center.px, center.py) (p.px, p.py) ≤
      ((((⌈r / sch.edge⌉).toNat : ℕ) : ℚ) * sch.edge) ^ 2 := by
    have h2 : hdistSq (center.px, center.py) (p.px, p.py) ≤ r ^ 2 := by
      unfold hdistSq
      unfold distSq at hd
      nlinarith [sq_nonneg (p.alt - center.alt)]
    exact le_trans h2 (pow_le_pow_left₀ hr hKr 2)
  have hhex : sch.cellOf (p.px, p.py) ∈
      sch.kring (⌈r / sch.edge⌉).toNat (sch.cellOf (center.px, center.py)) :=
    sch.cover _ _ _ hhd
  have halt : |p.alt - center.alt| ≤ r := by
    rw [abs_le]
    unfold distSq at hd
    constructor <;> nlinarith [sq_nonneg (p.px - center.px), sq_nonneg (p.py - center.py)]
  have hvox : |vox h p.alt - vox h center.alt| ≤ ⌈r / h⌉ := vox_bound hh halt
  simp only [query_radius]
  refine List.mem_flatMap.mpr ⟨(keyOf sch h p, s), ?_, hu⟩
  refine List.mem_filter.mpr ⟨hmem, ?_⟩
  simp only [keyOf, decide_eq_true_eq]
  exact ⟨hhex, hvox⟩

/-- A degenerate cell scheme (single hex covering the whole plane),
used to instantiate the index theorems on concrete inputs. -/
def trivialScheme : CellScheme where
  cellOf := fun _ => 0
  kring := fun _ _ => [0]
  edge := 1
  edge_pos := one_pos
  cover := fun _ _ _ _ => List.mem_singleton.mpr rfl

/-- C5 witness: uniqueness of the containing cell after one upsert. -/
theorem spatial_index_uniqueness_witness :
    ∃! c : CellKey,
      cellHas (applySOps trivialScheme 1 [SOp.up 0 ⟨0, 0, 0⟩] emptyEngine).cells c 0 :=
  spatial_index_uniqueness trivialScheme 1 [SOp.up 0 ⟨0, 0, 0⟩] 0 ⟨0, 0, 0⟩ rfl

/-- C7 witness: a track at the query center is returned at radius 0. -/
theorem query_radius_complete_witness :
    0 ∈ query_radius trivialScheme 1
      (applySOps trivialScheme 1 [SOp.up 0 ⟨0, 0, 0⟩] emptyEngine) ⟨0, 0, 0⟩ 0 :=
  query_radius_complete trivialScheme 1 [SOp.up 0 ⟨0, 0, 0⟩] ⟨0, 0, 0⟩ 0 0 ⟨0, 0, 0⟩
    one_pos le_rfl rfl (by norm_num [distSq])

/-! ## Part 5 — the augmented-state filter (`godview_time`)

`AugmentedStateFilter` is re-exported by godview_core/src/lib.rs:18 and
driven through `new`/`update_oosm`/`predict` (main.rs:118,235,262;
carla_mode.rs:75,174,205), but the `godview_time` module is absent from
`src/`; the filter below is modelled from spec §4.1.  `f64` arithmetic is
embedded as exact rational arithmetic.  The spec's OOSM algorithm — roll
back to the latest snapshot not exceeding `t`, apply the update at `t`,
then re-propagate forward re-applying the more recent measurements in
timestamp order — computes, in exact arithmetic, the predict–update fold
over the accepted measurements sorted by timestamp; the model maintains
that sorted list and defines the posterior as that fold. -/

/-- 3-vectors over ℚ. -/
abbrev Vec3 := Fin 3 → ℚ

/-- 9-vectors (position, velocity, acceleration) over ℚ. -/
abbrev Vec9 := Fin 9 → ℚ

/-- 3×3 matrices over ℚ. -/
abbrev Mat3 := Matrix (Fin 3) (Fin 3) ℚ

/-- 9×9 matrices over ℚ. -/
abbrev Mat9 := Matrix (Fin 9) (Fin 9) ℚ

/-- The position-only measurement model `H = [I₃ 0 0]` (spec §4.1). -/
def Hmat : Matrix (Fin 3) (Fin 9) ℚ :=
  Matrix.of fun i j => if (j : ℕ) = (i : ℕ) then 1 else 0

/-- The discrete-time constant-acceleration transition for step `dt`
(spec §4.1): position += v·dt + half·a·dt², velocity += a·dt,
acceleration unchanged. -/
def Fmat (dt : ℚ) : Mat9 :=
  Matrix.of fun i j =>
    if (j : ℕ) = (i : ℕ) then 1
    else if (j : ℕ) = (i : ℕ) + 3 then dt
    else if (j : ℕ) = (i : ℕ) + 6 then dt * dt / 2
    else 0

/-- Computable 3×3 inverse via the adjugate; the zero matrix when
singular (the singular case is guarded by the conditioning check). -/
def inv3 (A : Mat3) : Mat3 := (A.det)⁻¹ • A.adjugate

/-- A stored (accepted) measurement: position observation and its
timestamp. -/
structure Meas where
  z : Vec3
  t : ℚ
deriving DecidableEq

/-- A wire measurement before acceptance: the observation, the
finiteness flag of the incoming floats (`false` models a NaN/Inf entry),
and its timestamp. -/
structure WMeas where
  z : Vec3
  finite : Bool
  t : ℚ

/-- The predict step (spec §4.1): `x ← F·x`, `P ← F·P·Fᵀ + dt·Q`
(process noise scales with `dt`). -/
def predictStep (Q : Mat9) (dt : ℚ) (xP : Vec9 × Mat9) : Vec9 × Mat9 :=
  (Fmat dt *ᵥ xP.1, Fmat dt * xP.2 * (Fmat dt)ᵀ + dt • Q)

/-- The innovation covariance `S = H·P·Hᵀ + R` (spec §4.1). -/
def Sof (R : Mat3) (P : Mat9) : Mat3 := Hmat * P * Hmatᵀ + R

/-- The Kalman gain `K = P·Hᵀ·S⁻¹` (spec §4.1). -/
def Kof (R : Mat3) (P : Mat9) : Matrix (Fin 9) (Fin 3) ℚ :=
  P * Hmatᵀ * inv3 (Sof R P)

/-- The measurement update (spec §4.1): innovation `y = z − H·x̂`,
posterior `x = x̂ + K·y`, `P = (I − K·H)·P̂`, symmetrized
`P ← (P + Pᵀ)/2`. -/
def updateStep (R : Mat3) (z : Vec3) (xP : Vec9 × Mat9) : Vec9 × Mat9 :=
  let K := Kof R xP.2
  let P' := (1 - K * Hmat) * xP.2
  (xP.1 + K *ᵥ (z - Hmat *ᵥ xP.1), (1 / 2 : ℚ) • (P' + P'ᵀ))

/-- Filter error reports (spec §4.1, §7). -/
inductive FilterErr where
  | OOSMTooOld
  | FilterNumericIllCond
  | FilterNumericNonFinite
deriving DecidableEq

/-- `AugmentedStateFilter` (godview_core/src/lib.rs:18).  Modelled from
the spec (§4.1): initial condition, process/measurement noise, lag depth
`L`, the numeric conditioning guard (the reciprocal-condition-number
test, whose numeric details live in the missing module, abstracted as a
Boolean predicate on `S`), the accepted measurements in timestamp order,
and the current time. -/
structure ASFilter where
  x0 : Vec9
  P0 : Mat9
  t0 : ℚ
  Q : Mat9
  R : Mat3
  lagDepth : ℕ
  numGuard : Mat3 → Bool
  meas : List Meas
  tNow : ℚ

/-- `AugmentedStateFilter::new` (main.rs:118, carla_mode.rs:75). -/
def ASFilter.new (x0 : Vec9) (P0 : Mat9) (Q : Mat9) (R : Mat3) (lag : ℕ)
    (guard : Mat3 → Bool) (t0 : ℚ) : ASFilter :=
  { x0 := x0, P0 := P0, t0 := t0, Q := Q, R := R, lagDepth := lag,
    numGuard := guard, meas := [], tNow := t0 }

/-- Fold the predict–update chain over a measurement list in order from
an initial condition; returns the posterior and the time it is valid
at. -/
def runMeas (Q : Mat9) (R : Mat3) (init : Vec9 × Mat9) (t0 : ℚ) (ms : List Meas) :
    (Vec9 × Mat9) × ℚ :=
  ms.foldl (fun acc m => (updateStep R m.z (predictStep Q (m.t - acc.2) acc.1), m.t))
    (init, t0)

/-- `state()` (spec §4.1): the posterior — the fold over the accepted
measurements, predicted forward to the current time when it is ahead of
the newest measurement. -/
def ASFilter.state (f : ASFilter) : Vec9 × Mat9 :=
  let rm := runMeas f.Q f.R (f.x0, f.P0) f.t0 f.meas
  if rm.2 < f.tNow then predictStep f.Q (f.tNow - rm.2) rm.1 else rm.1

/-- Sorted insertion of a measurement at its timestamp position. -/
def insertMeas (m : Meas) : List Meas → List Meas
  | [] => [m]
  | a :: l => if m.t ≤ a.t then m :: a :: l else a :: insertMeas m l

/-- The accepted measurements strictly before time `t` (the rollback
prefix of the OOSM update). -/
def measBefore (f : ASFilter) (t : ℚ) : List Meas :=
  f.meas.takeWhile (fun a => decide (a.t < t))

/-- Modelled from the spec: the timestamp of the oldest retained
snapshot — the initial time while fewer than `L` measurements are held,
else the L-th newest measurement's timestamp (spec §4.1, history ring of
capacity `L`). -/
def oldestRetained (f : ASFilter) : ℚ :=
  if f.meas.length < f.lagDepth then f.t0
  else ((f.meas.drop (f.meas.length - f.lagDepth)).headD ⟨0, f.t0⟩).t

/-- The innovation covariance the update at time `t` would face: predict
from the rollback point to `t` and form `S` there. -/
def innovCov (f : ASFilter) (t : ℚ) : Mat3 :=
  let pre := runMeas f.Q f.R (f.x0, f.P0) f.t0 (measBefore f t)
  Sof f.R (predictStep f.Q (t - pre.2) pre.1).2

/-- `update_oosm` (carla_mode.rs:174, main.rs:235).  Modelled from the
spec (§4.1): reject measurements with non-finite entries; reject
measurements older than the oldest retained snapshot ("too old"); reject
when the innovation covariance is ill-conditioned, preserving the filter
state; otherwise accept, inserting the measurement at its timestamp
position — the spec's forward re-propagation re-applying newer
measurements in timestamp order is realized by the recomputation in
`ASFilter.state`. -/
def update_oosm (f : ASFilter) (m : WMeas) : ASFilter × Option FilterErr :=
  if m.finite = false then (f, some .FilterNumericNonFinite)
  else if m.t < oldestRetained f then (f, some .OOSMTooOld)
  else if f.numGuard (innovCov f m.t) then (f, some .FilterNumericIllCond)
  else ({ f with meas := insertMeas ⟨m.z, m.t⟩ f.meas, tNow := max f.tNow m.t }, none)

/-- `predict(dt, now)` (carla_mode.rs:205, main.rs:262): advance the
filter's clock by `dt`. -/
def ASFilter.predict (f : ASFilter) (dt : ℚ) : ASFilter :=
  { f with tNow := f.tNow + dt }

/-- A filter operation: a predict or a measurement update. -/
inductive FOp where
  | pr (dt : ℚ)
  | up (m : WMeas)

/-- Apply one filter operation. -/
def applyFOp (f : ASFilter) : FOp → ASFilter
  | .pr dt => f.predict dt
  | .up m => (update_oosm f m).1

/-- Apply a sequence of filter operations. -/
def applyFOps (ops : List FOp) (f : ASFilter) : ASFilter :=
  ops.foldl applyFOp f

/-- Feed a sequence of measurements through `update_oosm`. -/
def feedAll (f : ASFilter) (ms : List WMeas) : ASFilter :=
  ms.foldl (fun g m => (update_oosm g m).1) f

/-- Every measurement of the sequence is accepted when fed in this
order. -/
def acceptedAllB (f : ASFilter) : List WMeas → Bool
  | [] => true
  | m :: r => ((update_oosm f m).2).isNone && acceptedAllB (update_oosm f m).1 r

/-- C6: filter update atomicity on error — a non-finite measurement, a
measurement older than the oldest retained snapshot, and an
ill-conditioned innovation covariance are each rejected with the
corresponding error report, the filter state left unchanged. -/
theorem update_oosm_rejection_atomic (f : ASFilter) (m : WMeas) :
    (m.finite = false → update_oosm f m = (f, some .FilterNumericNonFinite)) ∧
    (m.finite = true → m.t < oldestRetained f → update_oosm f m = (f, some .OOSMTooOld)) ∧
    (m.finite = true → ¬ m.t < oldestRetained f → f.numGuard (innovCov f m.t) = true →
      update_oosm f m = (f, some .FilterNumericIllCond)) := by
  refine ⟨fun h1 => ?_, fun h1 h2 => ?_, fun h1 h2 h3 => ?_⟩
  · unfold update_oosm
    rw [if_pos h1]
  · unfold update_oosm
    rw [if_neg (by simp [h1]), if_pos h2]
  · unfold update_oosm
    rw [if_neg (by simp [h1]), if_neg h2, if_pos h3]

/-- C6 witness: with a guard that always reports ill-conditioning, an
otherwise acceptable measurement is rejected and the filter unchanged. -/
theorem update_oosm_rejection_atomic_witness :
    update_oosm (ASFilter.new 0 1 1 1 20 (fun _ => true) 0) ⟨0, true, 1⟩ =
      (ASFilter.new 0 1 1 1 20 (fun _ => true) 0, some .FilterNumericIllCond) :=
  (update_oosm_rejection_atomic (ASFilter.new 0 1 1 1 20 (fun _ => true) 0)
      ⟨0, true, 1⟩).2.2 rfl
    (by norm_num [oldestRetained, ASFilter.new]) rfl

/-- Matrix symmetry. -/
def symM {n : ℕ} (M : Matrix (Fin n) (Fin n) ℚ) : Prop := Mᵀ = M

/-- Positive semi-definiteness as nonnegativity of the quadratic form
(for a symmetric matrix this bounds the minimum eigenvalue below by 0,
hence by −1e-9). -/
def PSDM {n : ℕ} (M : Matrix (Fin n) (Fin n) ℚ) : Prop :=
  ∀ v : Fin n → ℚ, 0 ≤ v ⬝ᵥ M *ᵥ v

lemma vecMul_eq_transpose_mulVec {n m : ℕ} (M : Matrix (Fin n) (Fin m) ℚ) (x : Fin n → ℚ) :
    x ᵥ* M = Mᵀ *ᵥ x := by
  ext i
  simp only [Matrix.vecMul, Matrix.mulVec, Matrix.dotProduct, Matrix.transpose_apply]
  exact Finset.sum_congr rfl (fun j _ => mul_comm _ _)

lemma qform_congr {n m : ℕ} (M : Matrix (Fin n) (Fin m) ℚ) (A : Matrix (Fin m) (Fin m) ℚ)
    (x : Fin n → ℚ) :
    x ⬝ᵥ (M * A * Mᵀ) *ᵥ x = (Mᵀ *ᵥ x) ⬝ᵥ A *ᵥ (Mᵀ *ᵥ x) := by
  rw [← Matrix.mulVec_mulVec, ← Matrix.mulVec_mulVec, Matrix.dotProduct_mulVec,
    vecMul_eq_transpose_mulVec]

lemma qform_transpose {n : ℕ} (M : Matrix (Fin n) (Fin n) ℚ) (x : Fin n → ℚ) :
    x ⬝ᵥ Mᵀ *ᵥ x = x ⬝ᵥ M *ᵥ x := by
  rw [Matrix.mulVec_transpose, Matrix.dotProduct_comm, ← Matrix.dotProduct_mulVec]

lemma PSDM_one {n : ℕ} : PSDM (1 : Matrix (Fin n) (Fin n) ℚ) := by
  intro v
  rw [Matrix.one_mulVec]
  exact Finset.sum_nonneg (fun i _ => mul_self_nonneg (v i))

lemma symM_one {n : ℕ} : symM (1 : Matrix (Fin n) (Fin n) ℚ) := Matrix.transpose_one

lemma PSDM_symmetrize {n : ℕ} {M : Matrix (Fin n) (Fin n) ℚ} (h : PSDM M) :
    PSDM ((1 / 2 : ℚ) • (M + Mᵀ)) := by
  intro v
  rw [Matrix.smul_mulVec_assoc, Matrix.dotProduct_smul, Matrix.add_mulVec,
    Matrix.dotProduct_add, qform_transpose, smul_eq_mul]
  have hv := h v
  linarith

lemma symM_symmetrize {n : ℕ} (M : Matrix (Fin n) (Fin n) ℚ) :
    symM ((1 / 2 : ℚ) • (M + Mᵀ)) := by
  unfold symM
  rw [Matrix.transpose_smul, Matrix.transpose_add, Matrix.transpose_transpose, add_comm]

lemma updateStep_snd (R : Mat3) (z : Vec3) (xP : Vec9 × Mat9) :
    (updateStep R z xP).2 =
      (1 / 2 : ℚ) • ((1 - Kof R xP.2 * Hmat) * xP.2 + ((1 - Kof R xP.2 * Hmat) * xP.2)ᵀ) :=
  rfl

lemma inv3_mul_self {S : Mat3} (hdet : S.det ≠ 0) : inv3 S * S = 1 := by
  unfold inv3
  rw [Matrix.smul_mul, Matrix.adjugate_mul, smul_smul, inv_mul_cancel₀ hdet, one_smul]

lemma updateStep_PSD {R : Mat3} (z : Vec3) (xP : Vec9 × Mat9)
    (hP : PSDM xP.2) (hR : PSDM R) :
    symM (updateStep R z xP).2 ∧ PSDM (updateStep R z xP).2 := by
  rw [updateStep_snd]
  refine ⟨symM_symmetrize _, PSDM_symmetrize ?_⟩
  by_cases hdet : (Sof R xP.2).det = 0
  · have hK0 : Kof R xP.2 = 0 := by
      unfold Kof inv3
      rw [hdet]
      simp
    rw [hK0, Matrix.zero_mul, sub_zero, Matrix.one_mul]
    exact hP
  · have hKS : Kof R xP.2 * (Hmat * xP.2 * Hmatᵀ + R) = xP.2 * Hmatᵀ := by
      have h0 : Kof R xP.2 * Sof R xP.2 = xP.2 * Hmatᵀ := by
        unfold Kof
        rw [Matrix.mul_assoc, inv3_mul_self hdet, Matrix.mul_one]
      exact h0
    have hKR : Kof R xP.2 * R = xP.2 * Hmatᵀ - Kof R xP.2 * (Hmat * xP.2 * Hmatᵀ) := by
      refine eq_sub_of_add_eq' ?_
      rw [← Matrix.mul_add]
      exact hKS
    have hgoal : (1 - Kof R xP.2 * Hmat) * xP.2 * (Hmatᵀ * (Kof R xP.2)ᵀ) =
        Kof R xP.2 * R * (Kof R xP.2)ᵀ := by
      rw [show Kof R xP.2 * R * (Kof R xP.2)ᵀ =
          (xP.2 * Hmatᵀ - Kof R xP.2 * (Hmat * xP.2 * Hmatᵀ)) * (Kof R xP.2)ᵀ from by
        rw [hKR]]
      simp only [Matrix.sub_mul, Matrix.one_mul, Matrix.mul_assoc]
    have ht : (1 - Kof R xP.2 * Hmat)ᵀ = 1 - Hmatᵀ * (Kof R xP.2)ᵀ := by
      rw [Matrix.transpose_sub, Matrix.transpose_one, Matrix.transpose_mul]
    have hJ : (1 - Kof R xP.2 * Hmat) * xP.2 =
        (1 - Kof R xP.2 * Hmat) * xP.2 * (1 - Kof R xP.2 * Hmat)ᵀ +
          Kof R xP.2 * R * (Kof R xP.2)ᵀ := by
      rw [ht, Matrix.mul_sub, Matrix.mul_one, hgoal]
      abel
    rw [hJ]
    intro v
    rw [Matrix.add_mulVec, Matrix.dotProduct_add, qform_congr, qform_congr]
    exact add_nonneg (hP _) (hR _)

lemma predictStep_inv {Q : Mat9} {dt : ℚ} {xP : Vec9 × Mat9}
    (hQs : symM Q) (hQp : PSDM Q) (hdt : 0 ≤ dt)
    (hs : symM xP.2) (hp : PSDM xP.2) :
    symM (predictStep Q dt xP).2 ∧ PSDM (predictStep Q dt xP).2 := by
  constructor
  · unfold symM predictStep
    simp only
    rw [Matrix.transpose_add, Matrix.transpose_smul, hQs, Matrix.transpose_mul,
      Matrix.transpose_mul, Matrix.transpose_transpose, hs, Matrix.mul_assoc]
  · intro v
    unfold predictStep
    simp only
    rw [Matrix.add_mulVec, Matrix.dotProduct_add, qform_congr, Matrix.smul_mulVec_assoc,
      Matrix.dotProduct_smul, smul_eq_mul]
    exact add_nonneg (hp _) (mul_nonneg hdt (hQp _))

/-- Timestamp well-formedness: the accepted measurements ascend from the
initial time. -/
def wfT (t0 : ℚ) (ms : List Meas) : Prop :=
  List.Chain (· ≤ ·) t0 (ms.map Meas.t)

lemma runMeas_inv (Q : Mat9) (R : Mat3) (hQs : symM Q) (hQp : PSDM Q) (hRp : PSDM R) :
    ∀ (ms : List Meas) (init : Vec9 × Mat9) (t0 : ℚ), wfT t0 ms →
      symM init.2 → PSDM init.2 →
      symM (runMeas Q R init t0 ms).1.2 ∧ PSDM (runMeas Q R init t0 ms).1.2 ∧
      t0 ≤ (runMeas Q R init t0 ms).2 := by
  intro ms
  induction ms with
  | nil =>
    intro init t0 _ hs hp
    exact ⟨hs, hp, le_refl t0⟩
  | cons m rest ih =>
    intro init t0 hwf hs hp
    have hstep : runMeas Q R init t0 (m :: rest) =
        runMeas Q R (updateStep R m.z (predictStep Q (m.t - t0) init)) m.t rest := rfl
    rw [hstep]
    obtain ⟨h1, h2⟩ := List.chain_cons.mp hwf
    have hdt : 0 ≤ m.t - t0 := by linarith
    have hpre := predictStep_inv hQs hQp hdt hs hp
    have hupd := updateStep_PSD m.z (predictStep Q (m.t - t0) init) hpre.2 hRp
    have hrec := ih (updateStep R m.z (predictStep Q (m.t - t0) init)) m.t h2 hupd.1 hupd.2
    exact ⟨hrec.1, hrec.2.1, le_trans h1 hrec.2.2⟩

/-- The posterior covariance of a filter whose measurement timestamps are
well-formed is symmetric and positive semi-definite, given symmetric PSD
initial covariance and noise matrices. -/
lemma state_sym_psd (f : ASFilter) (hwf : wfT f.t0 f.meas)
    (hP0s : symM f.P0) (hP0p : PSDM f.P0) (hQs : symM f.Q) (hQp : PSDM f.Q)
    (hRp : PSDM f.R) :
    symM (ASFilter.state f).2 ∧ PSDM (ASFilter.state f).2 := by
  have hrun := runMeas_inv f.Q f.R hQs hQp hRp f.meas (f.x0, f.P0) f.t0 hwf hP0s hP0p
  simp only [ASFilter.state]
  by_cases hlt : (runMeas f.Q f.R (f.x0, f.P0) f.t0 f.meas).2 < f.tNow
  · rw [if_pos hlt]
    have hdt : 0 ≤ f.tNow - (runMeas f.Q f.R (f.x0, f.P0) f.t0 f.meas).2 := by linarith
    exact predictStep_inv hQs hQp hdt hrun.1 hrun.2.1
  · rw [if_neg hlt]
    exact ⟨hrun.1, hrun.2.1⟩

lemma update_oosm_shape (f : ASFilter) (m : WMeas) :
    (update_oosm f m).1 = f ∨
    (update_oosm f m).1 =
      { f with meas := insertMeas ⟨m.z, m.t⟩ f.meas, tNow := max f.tNow m.t } := by
  unfold update_oosm
  by_cases h1 : m.finite = false
  · rw [if_pos h1]
    exact Or.inl rfl
  · rw [if_neg h1]
    by_cases h2 : m.t < oldestRetained f
    · rw [if_pos h2]
      exact Or.inl rfl
    · rw [if_neg h2]
      by_cases h3 : f.numGuard (innovCov f m.t) = true
      · rw [if_pos h3]
        exact Or.inl rfl
      · rw [if_neg h3]
        exact Or.inr rfl

/-- Configuration fields the filter operations never change. -/
def sameCfg (f g : ASFilter) : Prop :=
  f.x0 = g.x0 ∧ f.P0 = g.P0 ∧ f.t0 = g.t0 ∧ f.Q = g.Q ∧ f.R = g.R ∧
    f.lagDepth = g.lagDepth ∧ f.numGuard = g.numGuard

lemma sameCfg_refl (f : ASFilter) : sameCfg f f :=
  ⟨rfl, rfl, rfl, rfl, rfl, rfl, rfl⟩

lemma sameCfg_trans {f g h : ASFilter} (h1 : sameCfg f g) (h2 : sameCfg g h) :
    sameCfg f h :=
  ⟨h1.1.trans h2.1, h1.2.1.trans h2.2.1, h1.2.2.1.trans h2.2.2.1,
    h1.2.2.2.1.trans h2.2.2.2.1, h1.2.2.2.2.1.trans h2.2.2.2.2.1,
    h1.2.2.2.2.2.1.trans h2.2.2.2.2.2.1, h1.2.2.2.2.2.2.trans h2.2.2.2.2.2.2⟩

lemma sameCfg_update_oosm (f : ASFilter) (m : WMeas) :
    sameCfg ((update_oosm f m).1) f := by
  rcases update_oosm_shape f m with h | h <;> rw [h]
  · exact sameCfg_refl f
  · exact ⟨rfl, rfl, rfl, rfl, rfl, rfl, rfl⟩

lemma sameCfg_applyFOp (f : ASFilter) (op : FOp) : sameCfg (applyFOp f op) f := by
  cases op with
  | pr dt => exact ⟨rfl, rfl, rfl, rfl, rfl, rfl, rfl⟩
  | up m => exact sameCfg_update_oosm f m

lemma sameCfg_applyFOps (ops : List FOp) : ∀ f, sameCfg (applyFOps ops f) f := by
  induction ops with
  | nil => exact fun f => sameCfg_refl f
  | cons op rest ih =>
    intro f
    exact sameCfg_trans (ih (applyFOp f op)) (sameCfg_applyFOp f op)

lemma wfT_mem {t0 : ℚ} {ms : List Meas} (hwf : wfT t0 ms) {m : Meas} (hm : m ∈ ms) :
    t0 ≤ m.t := by
  have hp : List.Pairwise (· ≤ ·) (t0 :: ms.map Meas.t) := List.chain_iff_pairwise.mp hwf
  exact List.rel_of_pairwise_cons hp (List.mem_map_of_mem Meas.t hm)

lemma oldestRetained_ge (f : ASFilter) (hwf : wfT f.t0 f.meas) :
    f.t0 ≤ oldestRetained f := by
  unfold oldestRetained
  by_cases hlen : f.meas.length < f.lagDepth
  · rw [if_pos hlen]
  · rw [if_neg hlen]
    cases hd : f.meas.drop (f.meas.length - f.lagDepth) with
    | nil =>
      exact le_refl f.t0
    | cons a l =>
      have ha : a ∈ f.meas := by
        have hmem : a ∈ f.meas.drop (f.meas.length - f.lagDepth) := by
          rw [hd]
          exact List.mem_cons_self a l
        exact List.mem_of_mem_drop hmem
      exact wfT_mem hwf ha

lemma insertMeas_chain (m : Meas) :
    ∀ (ms : List Meas) (t0 : ℚ), t0 ≤ m.t →
      List.Chain (· ≤ ·) t0 (ms.map Meas.t) →
      List.Chain (· ≤ ·) t0 ((insertMeas m ms).map Meas.t) := by
  intro ms
  induction ms with
  | nil =>
    intro t0 h0 _
    exact List.Chain.cons h0 List.Chain.nil
  | cons a l ih =>
    intro t0 h0 hch
    rw [insertMeas]
    obtain ⟨h1, h2⟩ := List.chain_cons.mp hch
    by_cases hle : m.t ≤ a.t
    · rw [if_pos hle]
      exact List.chain_cons.mpr ⟨h0, List.chain_cons.mpr ⟨hle, h2⟩⟩
    · rw [if_neg hle]
      simp only [List.map_cons]
      exact List.chain_cons.mpr ⟨h1, ih a.t (le_of_not_le hle) h2⟩

lemma wfT_update_oosm (f : ASFilter) (m : WMeas) (hwf : wfT f.t0 f.meas) :
    wfT ((update_oosm f m).1).t0 ((update_oosm f m).1).meas := by
  unfold update_oosm
  by_cases h1 : m.finite = false
  · rw [if_pos h1]
    exact hwf
  · rw [if_neg h1]
    by_cases h2 : m.t < oldestRetained f
    · rw [if_pos h2]
      exact hwf
    · rw [if_neg h2]
      by_cases h3 : f.numGuard (innovCov f m.t) = true
      · rw [if_pos h3]
        exact hwf
      · rw [if_neg h3]
        have hm : f.t0 ≤ m.t :=
          le_trans (oldestRetained_ge f hwf) (le_of_not_lt h2)
        exact insertMeas_chain ⟨m.z, m.t⟩ f.meas f.t0 hm hwf

lemma wfT_applyFOp (f : ASFilter) (op : FOp) (hwf : wfT f.t0 f.meas) :
    wfT (applyFOp f op).t0 (applyFOp f op).meas := by
  cases op with
  | pr dt => exact hwf
  | up m => exact wfT_update_oosm f m hwf

lemma wfT_applyFOps (ops : List FOp) :
    ∀ f, wfT f.t0 f.meas → wfT (applyFOps ops f).t0 (applyFOps ops f).meas := by
  induction ops with
  | nil => exact fun f h => h
  | cons op rest ih =>
    intro f hwf
    exact ih (applyFOp f op) (wfT_applyFOp f op hwf)

/-- C2: after any sequence of filter operations from initialization, the
posterior covariance is symmetric and positive semi-definite (hence its
minimum eigenvalue is at least 0 ≥ −1e-9), provided the seed covariance
and the noise matrices are symmetric PSD — as holds for the agent's
`10·I`, `0.01·I`, `0.1·I` (main.rs:114–116). -/
theorem covariance_symmetric_psd (x0 : Vec9) (P0 Q : Mat9) (R : Mat3) (lag : ℕ)
    (guard : Mat3 → Bool) (t0 : ℚ) (ops : List FOp)
    (hP0s : symM P0) (hP0p : PSDM P0) (hQs : symM Q) (hQp : PSDM Q) (hRp : PSDM R) :
    symM (ASFilter.state (applyFOps ops (ASFilter.new x0 P0 Q R lag guard t0))).2 ∧
    PSDM (ASFilter.state (applyFOps ops (ASFilter.new x0 P0 Q R lag guard t0))).2 := by
  have hcfg := sameCfg_applyFOps ops (ASFilter.new x0 P0 Q R lag guard t0)
  have hwf := wfT_applyFOps ops (ASFilter.new x0 P0 Q R lag guard t0) List.Chain.nil
  refine state_sym_psd _ hwf ?_ ?_ ?_ ?_ ?_
  · rw [hcfg.2.1]
    exact hP0s
  · rw [hcfg.2.1]
    exact hP0p
  · rw [hcfg.2.2.2.1]
    exact hQs
  · rw [hcfg.2.2.2.1]
    exact hQp
  · rw [hcfg.2.2.2.2.1]
    exact hRp

/-- C2 witness: identity seed and noise matrices, one predict and one
update. -/
theorem covariance_symmetric_psd_witness :
    symM (ASFilter.state (applyFOps [FOp.pr 1, FOp.up ⟨0, true, 1⟩]
        (ASFilter.new 0 1 1 1 20 (fun _ => false) 0))).2 ∧
    PSDM (ASFilter.state (applyFOps [FOp.pr 1, FOp.up ⟨0, true, 1⟩]
        (ASFilter.new 0 1 1 1 20 (fun _ => false) 0))).2 :=
  covariance_symmetric_psd 0 1 1 1 20 (fun _ => false) 0 [FOp.pr 1, FOp.up ⟨0, true, 1⟩]
    symM_one PSDM_one symM_one PSDM_one PSDM_one

lemma update_oosm_accepted {f : ASFilter} {m : WMeas}
    (h : (update_oosm f m).2 = none) :
    (update_oosm f m).1 =
      { f with meas := insertMeas ⟨m.z, m.t⟩ f.meas, tNow := max f.tNow m.t } := by
  unfold update_oosm at h ⊢
  by_cases h1 : m.finite = false
  · rw [if_pos h1] at h
    exact Option.noConfusion h
  · rw [if_neg h1] at h ⊢
    by_cases h2 : m.t < oldestRetained f
    · rw [if_pos h2] at h
      exact Option.noConfusion h
    · rw [if_neg h2] at h ⊢
      by_cases h3 : f.numGuard (innovCov f m.t) = true
      · rw [if_pos h3] at h
        exact Option.noConfusion h
      · rw [if_neg h3]

lemma insertMeas_perm (m : Meas) (l : List Meas) :
    List.Perm (insertMeas m l) (m :: l) := by
  induction l with
  | nil => exact List.Perm.refl _
  | cons a t ih =>
    rw [insertMeas]
    by_cases hle : m.t ≤ a.t
    · rw [if_pos hle]
    · rw [if_neg hle]
      exact (List.Perm.cons a ih).trans (List.Perm.swap m a t)

lemma feedAll_accepted (ms : List WMeas) :
    ∀ f, acceptedAllB f ms = true →
      sameCfg (feedAll f ms) f ∧
      List.Perm (feedAll f ms).meas (ms.map (fun m => Meas.mk m.z m.t) ++ f.meas) ∧
      (feedAll f ms).tNow = ms.foldl (fun a m => max a m.t) f.tNow := by
  induction ms with
  | nil =>
    intro f _
    exact ⟨sameCfg_refl f, by simp [feedAll], rfl⟩
  | cons m r ih =>
    intro f hacc
    simp only [acceptedAllB, Bool.and_eq_true, Option.isNone_iff_eq_none] at hacc
    obtain ⟨hnone, hrest⟩ := hacc
    have hstep : feedAll f (m :: r) = feedAll ((update_oosm f m).1) r := rfl
    have hupd := update_oosm_accepted hnone
    obtain ⟨hcfg, hperm, htn⟩ := ih ((update_oosm f m).1) hrest
    rw [hupd] at hcfg hperm htn
    rw [hstep, hupd]
    refine ⟨sameCfg_trans hcfg ⟨rfl, rfl, rfl, rfl, rfl, rfl, rfl⟩, ?_, ?_⟩
    · refine hperm.trans ?_
      refine (List.Perm.append_left (r.map (fun m => Meas.mk m.z m.t))
        (insertMeas_perm ⟨m.z, m.t⟩ f.meas)).trans ?_
      exact List.perm_middle
    · exact htn

lemma feedAll_eq_applyFOps (f : ASFilter) (ms : List WMeas) :
    feedAll f ms = applyFOps (ms.map FOp.up) f := by
  unfold feedAll applyFOps
  rw [List.foldl_map]
  rfl

lemma wfT_pairwise_le {t0 : ℚ} {ms : List Meas} (hwf : wfT t0 ms) :
    List.Pairwise (fun a b : Meas => a.t ≤ b.t) ms := by
  have hp : List.Pairwise (· ≤ ·) (t0 :: ms.map Meas.t) := List.chain_iff_pairwise.mp hwf
  exact List.pairwise_map.mp hp.of_cons

lemma pairwise_lt_of_le_nodup {ms : List Meas}
    (hle : List.Pairwise (fun a b : Meas => a.t ≤ b.t) ms)
    (hnd : (ms.map Meas.t).Nodup) :
    List.Pairwise (fun a b : Meas => a.t < b.t) ms := by
  have hne : List.Pairwise (fun a b : Meas => a.t ≠ b.t) ms := List.pairwise_map.mp hnd
  exact (hle.and hne).imp (fun h => lt_of_le_of_ne h.1 h.2)

lemma eq_of_perm_sorted_lt {l1 l2 : List Meas}
    (hperm : List.Perm l1 l2)
    (h1 : List.Pairwise (fun a b : Meas => a.t < b.t) l1)
    (h2 : List.Pairwise (fun a b : Meas => a.t < b.t) l2) : l1 = l2 := by
  haveI : IsAntisymm Meas (fun a b => a.t < b.t) :=
    ⟨fun a b hab hba => absurd hba (lt_asymm hab)⟩
  exact List.eq_of_perm_of_sorted hperm h1 h2

lemma sameCfg_symm {f g : ASFilter} (h : sameCfg f g) : sameCfg g f :=
  ⟨h.1.symm, h.2.1.symm, h.2.2.1.symm, h.2.2.2.1.symm, h.2.2.2.2.1.symm,
    h.2.2.2.2.2.1.symm, h.2.2.2.2.2.2.symm⟩

lemma state_congr {f g : ASFilter} (hcfg : sameCfg f g) (hm : f.meas = g.meas)
    (ht : f.tNow = g.tNow) : ASFilter.state f = ASFilter.state g := by
  obtain ⟨h1, h2, h3, h4, h5, _, _⟩ := hcfg
  unfold ASFilter.state runMeas
  rw [h1, h2, h3, h4, h5, hm, ht]

/-- C1: OOSM equivalence — feeding a measurement sequence in timestamp
order and feeding a permutation of it in any arrival order (late
arrivals going through the OOSM path of `update_oosm`) produce posterior
state estimates within 1e-6 of each other at the final time, provided
every measurement is accepted (none falls outside the L-deep history
window); in exact arithmetic the two posteriors coincide. -/
theorem oosm_equivalence (x0 : Vec9) (P0 Q : Mat9) (R : Mat3) (lag : ℕ)
    (guard : Mat3 → Bool) (t0 : ℚ) (Ms Marr : List WMeas)
    (hsorted : List.Pairwise (fun a b : WMeas => a.t < b.t) Ms)
    (hperm : List.Perm Marr Ms)
    (hacc1 : acceptedAllB (ASFilter.new x0 P0 Q R lag guard t0) Ms = true)
    (hacc2 : acceptedAllB (ASFilter.new x0 P0 Q R lag guard t0) Marr = true) :
    ∀ i : Fin 9,
      |(ASFilter.state (feedAll (ASFilter.new x0 P0 Q R lag guard t0) Marr)).1 i -
        (ASFilter.state (feedAll (ASFilter.new x0 P0 Q R lag guard t0) Ms)).1 i| ≤
        1 / 1000000 := by
  obtain ⟨hcfg1, hperm1, htn1⟩ :=
    feedAll_accepted Marr (ASFilter.new x0 P0 Q R lag guard t0) hacc2
  obtain ⟨hcfg2, hperm2, htn2⟩ :=
    feedAll_accepted Ms (ASFilter.new x0 P0 Q R lag guard t0) hacc1
  have hmnil : (ASFilter.new x0 P0 Q R lag guard t0).meas = [] := rfl
  rw [hmnil, List.append_nil] at hperm1 hperm2
  have hpermM : List.Perm (feedAll (ASFilter.new x0 P0 Q R lag guard t0) Marr).meas
      (feedAll (ASFilter.new x0 P0 Q R lag guard t0) Ms).meas :=
    hperm1.trans ((hperm.map _).trans hperm2.symm)
  have hwf1 : wfT (feedAll (ASFilter.new x0 P0 Q R lag guard t0) Marr).t0
      (feedAll (ASFilter.new x0 P0 Q R lag guard t0) Marr).meas := by
    rw [feedAll_eq_applyFOps]
    exact wfT_applyFOps _ _ List.Chain.nil
  have hwf2 : wfT (feedAll (ASFilter.new x0 P0 Q R lag guard t0) Ms).t0
      (feedAll (ASFilter.new x0 P0 Q R lag guard t0) Ms).meas := by
    rw [feedAll_eq_applyFOps]
    exact wfT_applyFOps _ _ List.Chain.nil
  have hndMs : ((Ms.map (fun m => Meas.mk m.z m.t)).map Meas.t).Nodup := by
    rw [List.map_map]
    exact List.pairwise_map.mpr (hsorted.imp (fun h => ne_of_lt h))
  have hnd2 : ((feedAll (ASFilter.new x0 P0 Q R lag guard t0) Ms).meas.map Meas.t).Nodup :=
    (List.Perm.nodup_iff (hperm2.map Meas.t)).mpr hndMs
  have hnd1 : ((feedAll (ASFilter.new x0 P0 Q R lag guard t0) Marr).meas.map Meas.t).Nodup :=
    (List.Perm.nodup_iff (hpermM.map Meas.t)).mpr hnd2
  have hmeq : (feedAll (ASFilter.new x0 P0 Q R lag guard t0) Marr).meas =
      (feedAll (ASFilter.new x0 P0 Q R lag guard t0) Ms).meas :=
    eq_of_perm_sorted_lt hpermM
      (pairwise_lt_of_le_nodup (wfT_pairwise_le hwf1) hnd1)
      (pairwise_lt_of_le_nodup (wfT_pairwise_le hwf2) hnd2)
  have htneq : (feedAll (ASFilter.new x0 P0 Q R lag guard t0) Marr).tNow =
      (feedAll (ASFilter.new x0 P0 Q R lag guard t0) Ms).tNow := by
    rw [htn1, htn2]
    haveI : RightCommutative (fun (a : ℚ) (m : WMeas) => max a m.t) :=
      ⟨fun b a1 a2 => sup_right_comm b a1.t a2.t⟩
    exact hperm.foldl_eq _
  have hstate : ASFilter.state (feedAll (ASFilter.new x0 P0 Q R lag guard t0) Marr) =
      ASFilter.state (feedAll (ASFilter.new x0 P0 Q R lag guard t0) Ms) :=
    state_congr (sameCfg_trans hcfg1 (sameCfg_symm hcfg2)) hmeq htneq
  intro i
  rw [hstate, sub_self, abs_zero]
  norm_num

/-- C1 witness: two measurements fed in order and in reversed (OOSM)
order. -/
theorem oosm_equivalence_witness :
    |(ASFilter.state (feedAll (ASFilter.new 0 1 1 1 20 (fun _ => false) 0)
        [⟨0, true, 2⟩, ⟨0, true, 1⟩])).1 0 -
      (ASFilter.state (feedAll (ASFilter.new 0 1 1 1 20 (fun _ => false) 0)
        [⟨0, true, 1⟩, ⟨0, true, 2⟩])).1 0| ≤ 1 / 1000000 :=
  oosm_equivalence 0 1 1 1 20 (fun _ => false) 0
    [⟨0, true, 1⟩, ⟨0, true, 2⟩] [⟨0, true, 2⟩, ⟨0, true, 1⟩]
    (by
      refine List.Pairwise.cons ?_ (List.pairwise_singleton _ _)
      intro b hb
      rw [List.mem_singleton] at hb
      subst hb
      norm_num)
    (List.Perm.swap _ _ _)
    (by norm_num [acceptedAllB, update_oosm, oldestRetained, insertMeas, ASFilter.new])
    (by norm_num [acceptedAllB, update_oosm, oldestRetained, insertMeas, ASFilter.new])
    0

end Hivemind
